import Mathlib

/-!
Verification development for the deploy CLI's client-bundle churn engine
(`src/churnFormat.ts`): manifest codec (parse/serialize), churn comparator,
remote manifest store semantics, shell quoting, and the churn orchestration
workflow.

Modelling conventions (shallow embedding):
* JavaScript numbers are modelled as exact rationals (`ℚ`).  `Number(...)`
  string conversion is modelled exactly on the decimal/hex/octal/binary
  grammar; a magnitude of at least `2^1024` (double-precision overflow) is
  treated as non-finite, matching `Number.isFinite` on overflowing literals.
* JavaScript `Map<string, number>` is modelled as an insertion-ordered
  association list (`JsMap`); `set` updates in place or appends, `get`
  returns the first (unique) binding.
* Strings are processed as `List Char`; `String.split("\n")`,
  `String.trim()` and `split(/\s+/)` are embedded as structurally recursive
  char-list functions over the JS whitespace class.
* The ssh transport is modelled by its observable result
  (`TSshCommandResult`); the effectful orchestration `computeClientChurn`
  is embedded as a pure function of an environment that records the
  results each external call would produce, returning the overall outcome
  together with the number of upload (persistence) calls issued.
-/

/-- JS whitespace class (as used by `String.prototype.trim` and `\s`). -/
def isJsWhitespace (c : Char) : Bool :=
  c = ' ' || c = '\t' || c = '\n' || c = '\r' ||
  c = Char.ofNat 11 || c = Char.ofNat 12 ||
  c = Char.ofNat 0xa0 || c = Char.ofNat 0x1680 ||
  (Char.ofNat 0x2000 ≤ c && c ≤ Char.ofNat 0x200a) ||
  c = Char.ofNat 0x2028 || c = Char.ofNat 0x2029 ||
  c = Char.ofNat 0x202f || c = Char.ofNat 0x205f ||
  c = Char.ofNat 0x3000 || c = Char.ofNat 0xfeff

/-- Embedding of `line.trim()`: drop JS whitespace from both ends. -/
def jsTrim (l : List Char) : List Char :=
  ((l.dropWhile isJsWhitespace).reverse.dropWhile isJsWhitespace).reverse

/-- Embedding of `content.split("\n")` (keeps empty fields). -/
def splitNlAux : List Char → List Char → List (List Char)
  | [], acc => [acc.reverse]
  | c :: t, acc => if c = '\n' then acc.reverse :: splitNlAux t [] else splitNlAux t (c :: acc)

/-- Embedding of `trimmed.split(/\s+/)` on an already-trimmed string:
the maximal runs of non-whitespace characters.  (On input with leading
whitespace JS would emit an initial empty field; `parseManifest` only
splits trimmed non-blank lines, where that case cannot occur.) -/
def splitWsAux : List Char → List Char → List (List Char)
  | [], acc => if acc.isEmpty then [] else [acc.reverse]
  | c :: t, acc =>
    if isJsWhitespace c then
      if acc.isEmpty then splitWsAux t [] else acc.reverse :: splitWsAux t []
    else splitWsAux t (c :: acc)

/-- Embedding of `rest.join(" ")`. -/
def joinSpace : List (List Char) → List Char
  | [] => []
  | [x] => x
  | x :: xs => x ++ ' ' :: joinSpace xs

/-- Embedding of `lines.join("\n")`. -/
def joinNl : List (List Char) → List Char
  | [] => []
  | [x] => x
  | x :: xs => x ++ '\n' :: joinNl xs

/-- Decimal digit character class. -/
def isDigitChar (c : Char) : Bool := '0' ≤ c && c ≤ '9'

/-- Numeric value of a decimal digit character. -/
def digitVal (c : Char) : ℕ := c.toNat - 48

/-- Value of a decimal digit string (most significant first). -/
def decDigitsVal (l : List Char) : ℕ := l.foldl (fun a c => a * 10 + digitVal c) 0

/-- Digit character for a value `0..9`. -/
def digitChar (d : ℕ) : Char :=
  ['0', '1', '2', '3', '4', '5', '6', '7', '8', '9'].getD d '0'

/-- Decimal digits of `n`, most significant first (fuel-driven so that it
is structurally recursive; `natToDecimal` supplies sufficient fuel). -/
def natToDecimalAux : ℕ → ℕ → List Char → List Char
  | 0, _, acc => acc
  | _ + 1, 0, acc => acc
  | fuel + 1, n, acc => natToDecimalAux fuel (n / 10) (digitChar (n % 10) :: acc)

/-- Embedding of JS `String(size)` for a non-negative integer size. -/
def natToDecimal (n : ℕ) : List Char :=
  if n = 0 then ['0'] else natToDecimalAux n n []

/-- Value of a digit string in the given radix; `none` on an invalid digit. -/
def radixDigit (base : ℕ) (c : Char) : Option ℕ :=
  let d :=
    if '0' ≤ c ∧ c ≤ '9' then some (c.toNat - 48)
    else if 'a' ≤ c ∧ c ≤ 'f' then some (c.toNat - 87)
    else if 'A' ≤ c ∧ c ≤ 'F' then some (c.toNat - 55)
    else none
  d.bind fun d => if d < base then some d else none

/-- Value of a non-decimal integer literal body (`0x…`/`0o…`/`0b…`). -/
def parseRadix (base : ℕ) (l : List Char) : Option ℚ :=
  if l.isEmpty then none
  else (l.foldl (fun acc c => acc.bind fun a => (radixDigit base c).map fun d => a * base + d)
      (some 0)).map fun n => (n : ℚ)

/-- Optional exponent part of a decimal literal (`e`/`E` then signed digits);
fails unless the remainder is consumed exactly. -/
def parseExpPart (r : List Char) (mant : ℚ) : Option ℚ :=
  match r with
  | [] => some mant
  | c :: r1 =>
    if c = 'e' ∨ c = 'E' then
      let p : Bool × List Char :=
        match r1 with
        | '+' :: t => (false, t)
        | '-' :: t => (true, t)
        | t => (false, t)
      if ¬p.2.isEmpty ∧ p.2.all isDigitChar then
        some
          (if p.1 then mant / (10 : ℚ) ^ decDigitsVal p.2
          else mant * (10 : ℚ) ^ decDigitsVal p.2)
      else none
    else none

/-- Unsigned decimal literal: `digits [. digits] [exp]` or `. digits [exp]`. -/
def parseUnsignedDec (l : List Char) : Option ℚ :=
  let intPart := l.takeWhile isDigitChar
  let r1 := l.dropWhile isDigitChar
  match r1 with
  | [] => if intPart.isEmpty then none else some ((decDigitsVal intPart : ℚ))
  | '.' :: r2 =>
    let fracPart := r2.takeWhile isDigitChar
    let r3 := r2.dropWhile isDigitChar
    if intPart.isEmpty ∧ fracPart.isEmpty then none
    else
      parseExpPart r3
        ((decDigitsVal intPart : ℚ) + (decDigitsVal fracPart : ℚ) / (10 : ℚ) ^ fracPart.length)
  | _ => if intPart.isEmpty then none else parseExpPart r1 ((decDigitsVal intPart : ℚ))

/-- Signed decimal literal; the `Infinity` literal is mapped to `none`
(it is not a finite number, exactly what `Number.isFinite` rejects). -/
def parseSignedDec (tok : List Char) : Option ℚ :=
  let p : ℚ × List Char :=
    match tok with
    | '+' :: t => (1, t)
    | '-' :: t => (-1, t)
    | t => (1, t)
  if p.2 = ['I', 'n', 'f', 'i', 'n', 'i', 't', 'y'] then none
  else (parseUnsignedDec p.2).map fun v => p.1 * v

/-- Double-precision overflow bound: values of magnitude `≥ 2^1024` are
not finite JS numbers. -/
def jsFiniteBound : ℚ := ((2 ^ 1024 : ℕ) : ℚ)

/-- Embedding of `Number(sizeToken)` followed by the `Number.isFinite`
check of `parseManifest`: `some v` exactly when the token converts to a
finite number, whose exact rational value is `v` (float rounding is
abstracted to exact rational arithmetic). -/
def jsNumberFinite? (tok : List Char) : Option ℚ :=
  (match tok with
    | [] => some 0
    | '0' :: c :: rest =>
      if c = 'x' ∨ c = 'X' then parseRadix 16 rest
      else if c = 'o' ∨ c = 'O' then parseRadix 8 rest
      else if c = 'b' ∨ c = 'B' then parseRadix 2 rest
      else parseSignedDec ('0' :: c :: rest)
    | tok => parseSignedDec tok).bind
    fun v => if jsFiniteBound ≤ |v| then none else some v

/-- Insertion-ordered association list modelling `Map<string, number>`. -/
abbrev JsMap := List (String × ℚ)

/-- `map.get(key)`: first binding of the key. -/
def mapGet (map : JsMap) (key : String) : Option ℚ :=
  match map with
  | [] => none
  | e :: rest => if e.1 = key then some e.2 else mapGet rest key

/-- `map.set(key, value)`: update in place if present, else append. -/
def mapSet (map : JsMap) (key : String) (value : ℚ) : JsMap :=
  match map with
  | [] => [(key, value)]
  | e :: rest => if e.1 = key then (e.1, value) :: rest else e :: mapSet rest key value

/-- Per-line processing of `parseManifest`: trim; skip blank lines; split
on whitespace runs into the size token and the path remainder (re-joined
with single spaces); skip the line when the size is not a finite number or
the path is empty. -/
def lineEntry? (line : List Char) : Option (String × ℚ) :=
  let trimmed := jsTrim line
  if trimmed.isEmpty then none
  else
    match splitWsAux trimmed [] with
    | [] => none
    | sizeStr :: rest =>
      let filePath := joinSpace rest
      match jsNumberFinite? sizeStr with
      | none => none
      | some size => if filePath.isEmpty then none else some (String.mk filePath, size)

/-- Embedding of `parseManifest` (`churnFormat.ts`): split on newlines,
process each line, last write wins on duplicate paths.  Total on every
input string (the "never throws" guarantee is totality of this function). -/
def parseManifest (content : String) : JsMap :=
  (splitNlAux content.data []).foldl
    (fun map line =>
      match lineEntry? line with
      | none => map
      | some (filePath, size) => mapSet map filePath size)
    []

/-- Embedding of `TChurnMetrics` (counts as naturals, bytes and
percentages as exact rationals). -/
structure TChurnMetrics where
  totalOldFiles : ℕ
  totalNewFiles : ℕ
  stableFiles : ℕ
  changedFiles : ℕ
  addedFiles : ℕ
  removedFiles : ℕ
  totalOldBytes : ℚ
  totalNewBytes : ℚ
  stableBytes : ℚ
  changedBytes : ℚ
  addedBytes : ℚ
  removedBytes : ℚ
  downloadImpactFilesPercent : ℚ
  cacheReuseFilesPercent : ℚ
  downloadImpactBytesPercent : ℚ
  cacheReuseBytesPercent : ℚ
deriving DecidableEq

/-- Accumulator of the new-manifest classification loop. -/
structure TChurnAcc where
  stableFiles : ℕ
  changedFiles : ℕ
  addedFiles : ℕ
  stableBytes : ℚ
  changedBytes : ℚ
  addedBytes : ℚ
deriving DecidableEq

/-- One step of the loop over the new manifest's entries. -/
def newStep (oldMap : JsMap) (acc : TChurnAcc) (e : String × ℚ) : TChurnAcc :=
  match mapGet oldMap e.1 with
  | none => { acc with addedFiles := acc.addedFiles + 1, addedBytes := acc.addedBytes + e.2 }
  | some oldSize =>
    if oldSize = e.2 then
      { acc with stableFiles := acc.stableFiles + 1, stableBytes := acc.stableBytes + e.2 }
    else
      { acc with changedFiles := acc.changedFiles + 1, changedBytes := acc.changedBytes + e.2 }

/-- One step of the loop over the old manifest's entries (removed files). -/
def removedStep (newMap : JsMap) (acc : ℕ × ℚ) (e : String × ℚ) : ℕ × ℚ :=
  if (mapGet newMap e.1).isSome then acc else (acc.1 + 1, acc.2 + e.2)

/-- Embedding of `compareManifests` (`churnFormat.ts`). -/
def compareManifests (oldContent newContent : String) : TChurnMetrics :=
  let oldMap := parseManifest oldContent
  let newMap := parseManifest newContent
  let totalOldBytes := oldMap.foldl (fun acc e => acc + e.2) 0
  let totalNewBytes := newMap.foldl (fun acc e => acc + e.2) 0
  let acc := newMap.foldl (newStep oldMap) ⟨0, 0, 0, 0, 0, 0⟩
  let rem := oldMap.foldl (removedStep newMap) (0, 0)
  let totalOldFiles := oldMap.length
  let totalNewFiles := newMap.length
  { totalOldFiles := totalOldFiles
    totalNewFiles := totalNewFiles
    stableFiles := acc.stableFiles
    changedFiles := acc.changedFiles
    addedFiles := acc.addedFiles
    removedFiles := rem.1
    totalOldBytes := totalOldBytes
    totalNewBytes := totalNewBytes
    stableBytes := acc.stableBytes
    changedBytes := acc.changedBytes
    addedBytes := acc.addedBytes
    removedBytes := rem.2
    downloadImpactFilesPercent :=
      if 0 < totalNewFiles then
        (((acc.changedFiles + acc.addedFiles : ℕ) : ℚ) * 100) / (totalNewFiles : ℚ)
      else 0
    cacheReuseFilesPercent :=
      if 0 < totalNewFiles then ((acc.stableFiles : ℚ) * 100) / (totalNewFiles : ℚ) else 0
    downloadImpactBytesPercent :=
      if 0 < totalNewBytes then ((acc.changedBytes + acc.addedBytes) * 100) / totalNewBytes
      else 0
    cacheReuseBytesPercent :=
      if 0 < totalNewBytes then (acc.stableBytes * 100) / totalNewBytes else 0 }

/-- One serialized manifest line, `String(size) ++ "  " ++ path`. -/
def manifestLine (entry : String × ℕ) : List Char :=
  natToDecimal entry.2 ++ ' ' :: ' ' :: entry.1.data

/-- Lexicographic comparison of char lists (JS default string sort order). -/
def charListLe : List Char → List Char → Bool
  | [], _ => true
  | _ :: _, [] => false
  | a :: as, b :: bs => if a < b then true else if b < a then false else charListLe as bs

/-- Insert a line into a sorted list of lines. -/
def insertSorted (line : List Char) : List (List Char) → List (List Char)
  | [] => [line]
  | l :: rest => if charListLe line l then line :: l :: rest else l :: insertSorted line rest

/-- Stable sort of the serialized lines (`entries.sort()`; on strings any
correct sort produces the same list). -/
def sortLines : List (List Char) → List (List Char)
  | [] => []
  | l :: rest => insertSorted l (sortLines rest)

/-- Pure core of `buildLocalManifestContent` (`churnFormat.ts`): the
directory walk supplies the `(path, size)` entries; this builds the
serialized text — one line per entry, lines sorted lexicographically,
joined by newlines, with a trailing newline iff there is at least one
entry. -/
def buildLocalManifestContent (entries : List (String × ℕ)) : String :=
  let sorted := sortLines (entries.map manifestLine)
  String.mk (joinNl sorted ++ (match sorted with | [] => [] | _ => ['\n']))

/-- Embedding of `shellQuoteSingle`: wrap in single quotes, rewriting each
embedded single quote to close-quote, escaped quote, reopen-quote. -/
def escChar (c : Char) : List Char :=
  if c = '\'' then ['\'', '"', '\'', '"', '\''] else [c]

/-- `shellQuoteSingle` (`churnFormat.ts`). -/
def shellQuoteSingle (value : String) : String :=
  String.mk ('\'' :: (value.data.flatMap escChar ++ ['\'']))

/-- Parsing mode of the reference POSIX word grammar. -/
inductive QMode where
  | plain
  | single
  | double
deriving DecidableEq

/-- Characters that the simple-word reference grammar refuses to read
unquoted (whitespace, operators, and expansion-introducing characters). -/
def isShellSpecial (c : Char) : Bool :=
  isJsWhitespace c || c = '|' || c = '&' || c = ';' || c = '<' || c = '>' ||
  c = '(' || c = ')' || c = '$' || c = Char.ofNat 96 || c = '\\' ||
  c = '*' || c = '?' || c = '[' || c = '#' || c = '~' || c = '=' || c = '%'

/-- Reference POSIX shell un-quoting of a single word, with no expansions:
single quotes preserve everything up to the next single quote; double
quotes preserve everything up to the next double quote except the
expansion characters; unquoted special characters are outside the simple
word grammar and fail. -/
def shUnq : QMode → List Char → Option (List Char)
  | .plain, [] => some []
  | .single, [] => none
  | .double, [] => none
  | .plain, c :: t =>
    if c = '\'' then shUnq .single t
    else if c = '"' then shUnq .double t
    else if isShellSpecial c then none
    else (shUnq .plain t).map (c :: ·)
  | .single, c :: t =>
    if c = '\'' then shUnq .plain t else (shUnq .single t).map (c :: ·)
  | .double, c :: t =>
    if c = '"' then shUnq .plain t
    else if c = '$' ∨ c = Char.ofNat 96 ∨ c = '\\' then none
    else (shUnq .double t).map (c :: ·)

/-- Un-quote a full word under the reference shell grammar. -/
def shUnquote (s : String) : Option String :=
  (shUnq .plain s.data).map String.mk

/-- Embedding of `TSshCommandResult`: exit code (`null` when the process
was terminated without an exit code), captured output, and the
transport-level spawn failure, if any. -/
structure TSshCommandResult where
  code : Option Int
  stdout : String
  stderr : String
  spawnError : Option String
deriving DecidableEq

/-- Embedding of `TRemoteManifestResult`. -/
inductive TRemoteManifestResult where
  | none
  | error (reason : String)
  | ok (content : String)
deriving DecidableEq

/-- `String(code)` for a `number | null` exit code. -/
def optCodeString : Option Int → String
  | Option.none => "null"
  | some i => toString i

/-- Embedding of `loadRemoteManifest` (`churnFormat.ts`) as a function of
the results of its two transport calls (`test -f`, then `cat`); the
second result is consulted only when the existence check succeeds. -/
def loadRemoteManifest (existsResult contentResult : TSshCommandResult) :
    TRemoteManifestResult :=
  match existsResult.spawnError with
  | some e => .error e
  | Option.none =>
    if existsResult.code = some 0 then
      match contentResult.spawnError with
      | some e => .error e
      | Option.none =>
        if contentResult.code = some 0 then .ok contentResult.stdout
        else
          .error
            (if contentResult.stderr = "" then
              "ssh exited with code " ++ optCodeString contentResult.code ++ " reading manifest"
            else contentResult.stderr)
    else if existsResult.code = some 1 ∧ jsTrim existsResult.stderr.data = [] then .none
    else
      .error
        (if existsResult.stderr = "" then
          "ssh exited with code " ++ optCodeString existsResult.code ++ " checking manifest"
        else existsResult.stderr)

/-- Embedding of `TChurnErrorCode`. -/
inductive TChurnErrorCode where
  | CHURN_NO_CLIENT_DIR
  | CHURN_REMOTE_MANIFEST_FETCH_FAILED
  | CHURN_REMOTE_MANIFEST_UPLOAD_FAILED
  | CHURN_COMPUTE_FAILED
deriving DecidableEq

/-- Embedding of `uploadRemoteManifest` (`churnFormat.ts`) as a function
of the result of its single transport call: spawn failures and non-zero
exits raise `CHURN_REMOTE_MANIFEST_UPLOAD_FAILED`. -/
def uploadRemoteManifest (result : TSshCommandResult) :
    Except (TChurnErrorCode × String) Unit :=
  match result.spawnError with
  | some e => .error (.CHURN_REMOTE_MANIFEST_UPLOAD_FAILED, e)
  | Option.none =>
    if result.code = some 0 then .ok ()
    else
      .error
        (.CHURN_REMOTE_MANIFEST_UPLOAD_FAILED,
          if result.stderr = "" then
            "ssh exited with code " ++ optCodeString result.code ++ " uploading manifest"
          else result.stderr)

/-- Embedding of `computeChurnFromManifests` (`churnFormat.ts`): a `none`
baseline is treated as an empty old manifest.  (The `error` variant is
excluded by the caller; it is mapped like `none`, which is unreachable.)
The comparator is total, so the defensive catch in the source never
fires. -/
def computeChurnFromManifests (remote : TRemoteManifestResult)
    (localManifestContent : String) : TChurnMetrics :=
  compareManifests (match remote with | .ok content => content | _ => "") localManifestContent

/-- Environment of one `computeClientChurn` invocation: what each
external call would observe. -/
structure TChurnEnv where
  clientDir : String
  clientDirExists : Bool
  localBuild : Except String String
  existsResult : TSshCommandResult
  contentResult : TSshCommandResult
  uploadResult : TSshCommandResult

/-- Embedding of `computeClientChurn` (`churnFormat.ts`): the linear
workflow — client-directory check, local manifest build, baseline fetch,
comparison, and (unless `dryRun`) baseline upload.  Returns the overall
result together with the number of upload (persistence) calls issued. -/
def computeClientChurn (dryRun : Bool) (env : TChurnEnv) :
    Except (TChurnErrorCode × String) TChurnMetrics × ℕ :=
  if env.clientDirExists = false then
    (.error (.CHURN_NO_CLIENT_DIR, "Client directory does not exist: " ++ env.clientDir), 0)
  else
    match env.localBuild with
    | .error msg => (.error (.CHURN_COMPUTE_FAILED, msg), 0)
    | .ok localManifestContent =>
      match loadRemoteManifest env.existsResult env.contentResult with
      | .error reason => (.error (.CHURN_REMOTE_MANIFEST_FETCH_FAILED, reason), 0)
      | remote =>
        let metrics := computeChurnFromManifests remote localManifestContent
        if dryRun then (.ok metrics, 0)
        else
          match uploadRemoteManifest env.uploadResult with
          | .error e => (.error e, 1)
          | .ok _ => (.ok metrics, 1)

/-- Old-side byte total of the changed entries: the sum, over every path
present in both manifests with different sizes, of the *old* size.  (The
returned `changedBytes` metric accumulates the *new* sizes.) -/
def changedOldBytes (oldContent newContent : String) : ℚ :=
  ((parseManifest oldContent).map fun e =>
      if (mapGet (parseManifest newContent) e.1).isSome ∧
          mapGet (parseManifest newContent) e.1 ≠ some e.2 then e.2
      else 0).sum

/-- Last binding of a key in an (entry) list — the value that
last-write-wins insertion of the list's entries leaves behind. -/
def lookupLast : List (String × ℚ) → String → Option ℚ
  | [], _ => none
  | e :: t, p =>
    match lookupLast t p with
    | some v => some v
    | none => if e.1 = p then some e.2 else none

/-- Association lookup in a serializer-input manifest. -/
def manifestLookup (entries : List (String × ℕ)) (p : String) : Option ℕ :=
  (entries.find? fun e => decide (e.1 = p)).map fun e => e.2

/-- A path survives the manifest line format: it is nonempty and its
whitespace is normalized — splitting it on whitespace runs and re-joining
the pieces with single spaces reproduces it (so it has no leading or
trailing whitespace, no run of two or more whitespace characters, and
every whitespace character in it is a plain space). -/
def goodPath (p : String) : Prop :=
  p.data ≠ [] ∧ joinSpace (splitWsAux p.data []) = p.data

instance (p : String) : Decidable (goodPath p) := by
  unfold goodPath
  infer_instance

/-- Per-line parse rule as the specification words it: a blank
(whitespace-only) line is dropped; otherwise the line is split into the
size token and the path remainder, and the line is dropped exactly when
the size token does not convert to a finite number or the remaining path
is empty; every other line yields its `(path, size)` entry. -/
def lineEntrySpec (line : List Char) : Option (String × ℚ) :=
  match splitWsAux (jsTrim line) [] with
  | [] => none
  | sizeToken :: pathParts =>
    match jsNumberFinite? sizeToken, joinSpace pathParts with
    | some size, c :: cs => some (String.mk (c :: cs), size)
    | _, _ => none

/-! ### Basic facts about the `JsMap` operations -/

theorem mapGet_mapSet (m : JsMap) (k p : String) (v : ℚ) :
    mapGet (mapSet m k v) p = if k = p then some v else mapGet m p := by
  induction m with
  | nil => simp [mapSet, mapGet]
  | cons e t ih =>
    simp only [mapSet]
    by_cases h : e.1 = k
    · simp only [if_pos h, mapGet]
      by_cases h2 : k = p
      · simp [h.trans h2, h2]
      · simp [h2, fun hh : e.1 = p => h2 (h.symm.trans hh), h]
    · simp only [if_neg h, mapGet, ih]
      by_cases h2 : e.1 = p
      · by_cases h3 : k = p
        · exact absurd (h2.trans h3.symm) h
        · simp [h2, h3]
      · simp [h2]

theorem mapGet_eq_none_iff (m : JsMap) (p : String) :
    mapGet m p = none ↔ p ∉ m.map Prod.fst := by
  induction m with
  | nil => simp [mapGet]
  | cons e t ih =>
    simp only [mapGet, List.map_cons, List.mem_cons]
    by_cases h : e.1 = p
    · simp [h]
    · simp only [if_neg h, ih]
      constructor
      · intro hn hc
        rcases hc with hc | hc
        · exact h hc.symm
        · exact hn hc
      · exact fun hn hc => hn (Or.inr hc)

theorem mapGet_isSome_iff (m : JsMap) (p : String) :
    (mapGet m p).isSome = true ↔ p ∈ m.map Prod.fst := by
  rw [Option.isSome_iff_ne_none, ne_eq, mapGet_eq_none_iff, not_not]

theorem keys_mapSet (m : JsMap) (k : String) (v : ℚ) :
    (mapSet m k v).map Prod.fst =
      if k ∈ m.map Prod.fst then m.map Prod.fst else m.map Prod.fst ++ [k] := by
  induction m with
  | nil => simp [mapSet]
  | cons e t ih =>
    by_cases h : e.1 = k
    · simp [mapSet, h]
    · simp only [mapSet, if_neg h, List.map_cons, ih]
      by_cases h2 : k ∈ t.map Prod.fst
      · simp [h2]
      · simp only [if_neg h2, List.mem_cons]
        rw [if_neg (fun hc => hc.elim (fun hc1 => h hc1.symm) h2)]
        simp

theorem keys_nodup_mapSet (m : JsMap) (k : String) (v : ℚ)
    (h : (m.map Prod.fst).Nodup) : ((mapSet m k v).map Prod.fst).Nodup := by
  rw [keys_mapSet]
  by_cases h2 : k ∈ m.map Prod.fst
  · simpa [h2]
  · simpa [h2] using List.Nodup.append h (List.nodup_singleton k) (by simpa using h2)

theorem parseManifest_keys_nodup (content : String) :
    ((parseManifest content).map Prod.fst).Nodup := by
  unfold parseManifest
  generalize splitNlAux content.data [] = ls
  have main : ∀ (ls : List (List Char)) (m0 : JsMap), (m0.map Prod.fst).Nodup →
      ((ls.foldl (fun map line =>
        match lineEntry? line with
        | none => map
        | some (filePath, size) => mapSet map filePath size) m0).map Prod.fst).Nodup := by
    intro ls
    induction ls with
    | nil => intro m0 h; simpa using h
    | cons l t ih =>
      intro m0 h
      simp only [List.foldl_cons]
      cases hE : lineEntry? l with
      | none => exact ih m0 h
      | some e => exact ih _ (keys_nodup_mapSet m0 e.1 e.2 h)
  exact main ls [] (by simp)

/-! ### Characterizations of the comparator's accumulation loops -/

theorem foldl_add_char (l : JsMap) (a : ℚ) :
    l.foldl (fun acc e => acc + e.2) a = a + (l.map (fun e => e.2)).sum := by
  induction l generalizing a with
  | nil => simp
  | cons e t ih => simp [ih, add_assoc]

theorem newFold_char (oldMap : JsMap) (l : JsMap) (a : TChurnAcc) :
    l.foldl (newStep oldMap) a =
      ⟨a.stableFiles + l.countP (fun e => decide (mapGet oldMap e.1 = some e.2)),
       a.changedFiles + l.countP (fun e =>
          decide ((mapGet oldMap e.1).isSome = true ∧ ¬mapGet oldMap e.1 = some e.2)),
       a.addedFiles + l.countP (fun e => decide (mapGet oldMap e.1 = none)),
       a.stableBytes + (l.map (fun e => if mapGet oldMap e.1 = some e.2 then e.2 else 0)).sum,
       a.changedBytes + (l.map (fun e =>
          if (mapGet oldMap e.1).isSome = true ∧ ¬mapGet oldMap e.1 = some e.2 then e.2
          else 0)).sum,
       a.addedBytes + (l.map (fun e => if mapGet oldMap e.1 = none then e.2 else 0)).sum⟩ := by
  induction l generalizing a with
  | nil => cases a; simp
  | cons e t ih =>
    simp only [List.foldl_cons, ih, List.countP_cons, List.map_cons, List.sum_cons]
    rcases hO : mapGet oldMap e.1 with _ | s
    · simp only [newStep, hO, TChurnAcc.mk.injEq, decide_eq_true_eq, Option.isSome_none]
      refine ⟨by (try simp) <;> omega, by (try simp) <;> omega, by (try simp) <;> omega,
        by (try simp) <;> ring, by (try simp) <;> ring, by (try simp) <;> ring⟩
    · by_cases h2 : s = e.2
      · simp only [newStep, hO, if_pos h2, TChurnAcc.mk.injEq, decide_eq_true_eq,
          Option.isSome_some, Option.some.injEq, h2]
        refine ⟨by (try simp) <;> omega, by (try simp) <;> omega, by (try simp) <;> omega,
          by (try simp) <;> ring, by (try simp) <;> ring, by (try simp) <;> ring⟩
      · simp only [newStep, hO, if_neg h2, TChurnAcc.mk.injEq, decide_eq_true_eq,
          Option.isSome_some, Option.some.injEq, h2]
        refine ⟨by (try simp) <;> omega, by (try simp) <;> omega, by (try simp) <;> omega,
          by (try simp) <;> ring, by (try simp) <;> ring, by (try simp) <;> ring⟩

theorem removedFold_char (newMap : JsMap) (l : JsMap) (a : ℕ × ℚ) :
    l.foldl (removedStep newMap) a =
      (a.1 + l.countP (fun e => decide (mapGet newMap e.1 = none)),
       a.2 + (l.map (fun e => if mapGet newMap e.1 = none then e.2 else 0)).sum) := by
  induction l generalizing a with
  | nil => simp
  | cons e t ih =>
    simp only [List.foldl_cons, ih, List.countP_cons, List.map_cons, List.sum_cons]
    rcases hO : mapGet newMap e.1 with _ | s
    · simp only [removedStep, hO, Option.isSome_none, Bool.false_eq_true, if_false,
        decide_eq_true_eq]
      refine Prod.ext ?_ ?_
      · (try simp) <;> omega
      · (try simp) <;> ring
    · simp only [removedStep, hO, Option.isSome_some, if_true, decide_eq_true_eq]
      refine Prod.ext ?_ ?_
      · (try simp) <;> omega
      · (try simp) <;> ring

/-! ### Summation toolkit for relating the two manifests' entry lists -/

theorem countP_eq_sum_map {α : Type} (l : List α) (p : α → Bool) :
    l.countP p = (l.map (fun e => if p e then (1 : ℕ) else 0)).sum := by
  induction l with
  | nil => simp
  | cons e t ih => by_cases h : p e <;> simp [List.countP_cons, h, ih, Nat.add_comm]

theorem sum_map_add2 {α M : Type} [AddCommMonoid M] (l : List α) (f g : α → M) :
    (l.map (fun e => f e + g e)).sum = (l.map f).sum + (l.map g).sum := by
  induction l with
  | nil => simp
  | cons e t ih =>
    simp only [List.map_cons, List.sum_cons, ih]
    abel

theorem sum_map_add3 {α M : Type} [AddCommMonoid M] (l : List α) (f g h : α → M) :
    (l.map (fun e => f e + g e + h e)).sum = (l.map f).sum + (l.map g).sum + (l.map h).sum := by
  induction l with
  | nil => simp
  | cons e t ih =>
    simp only [List.map_cons, List.sum_cons, ih]
    abel

theorem sum_pointMass_zero {M : Type} [AddCommMonoid M] (l : JsMap) (k : String)
    (hk : k ∉ l.map Prod.fst) (v : ℚ) (w : String × ℚ → M) :
    (l.map (fun e => if e.1 = k ∧ e.2 = v then w e else 0)).sum = 0 := by
  induction l with
  | nil => simp
  | cons e t ih =>
    simp only [List.map_cons, List.mem_cons, not_or] at hk
    simp only [List.map_cons, List.sum_cons]
    rw [if_neg (fun hc : _ ∧ _ => hk.1 hc.1.symm), ih hk.2, add_zero]

theorem sum_pointMass {M : Type} [AddCommMonoid M] (l : JsMap)
    (hn : (l.map Prod.fst).Nodup) (k : String) (v : ℚ) (w : String × ℚ → M) :
    (l.map (fun e => if e.1 = k ∧ e.2 = v then w e else 0)).sum =
      if mapGet l k = some v then w (k, v) else 0 := by
  induction l with
  | nil => simp [mapGet]
  | cons e t ih =>
    obtain ⟨a, b⟩ := e
    simp only [List.map_cons, List.nodup_cons] at hn
    simp only [List.map_cons, List.sum_cons, mapGet]
    by_cases h : a = k
    · subst h
      rw [sum_pointMass_zero t a hn.1 v w, add_zero]
      by_cases h2 : b = v
      · subst h2
        simp
      · simp [h2, fun hc : some b = some v => h2 (Option.some.inj hc)]
    · rw [if_neg (fun hc : a = k ∧ b = v => h hc.1), if_neg h, zero_add, ih hn.2]

theorem count_pointMass_zero (l : JsMap) (k : String) (hk : k ∉ l.map Prod.fst) :
    (l.map (fun e => if e.1 = k then (1 : ℕ) else 0)).sum = 0 := by
  induction l with
  | nil => simp
  | cons e t ih =>
    simp only [List.map_cons, List.mem_cons, not_or] at hk
    simp only [List.map_cons, List.sum_cons]
    rw [if_neg (fun hc => hk.1 hc.symm), ih hk.2, add_zero]

theorem count_pointMass (l : JsMap) (hn : (l.map Prod.fst).Nodup) (k : String) :
    (l.map (fun e => if e.1 = k then (1 : ℕ) else 0)).sum =
      if (mapGet l k).isSome = true then 1 else 0 := by
  induction l with
  | nil => simp [mapGet]
  | cons e t ih =>
    obtain ⟨a, b⟩ := e
    simp only [List.map_cons, List.nodup_cons] at hn
    simp only [List.map_cons, List.sum_cons, mapGet]
    by_cases h : a = k
    · subst h
      rw [count_pointMass_zero t a hn.1, add_zero]
      simp
    · rw [if_neg h, if_neg h, zero_add, ih hn.2]

theorem cross_stable {M : Type} [AddCommMonoid M] (old new : JsMap)
    (hno : (old.map Prod.fst).Nodup) (hnn : (new.map Prod.fst).Nodup)
    (w : String × ℚ → M) :
    (new.map (fun e => if mapGet old e.1 = some e.2 then w e else 0)).sum =
      (old.map (fun e => if mapGet new e.1 = some e.2 then w e else 0)).sum := by
  induction old with
  | nil => simp [mapGet]
  | cons o t ih =>
    obtain ⟨ok, ov⟩ := o
    simp only [List.map_cons, List.nodup_cons] at hno
    have htk : mapGet t ok = none := (mapGet_eq_none_iff t ok).2 hno.1
    have hpt : ∀ e ∈ new, (if mapGet ((ok, ov) :: t) e.1 = some e.2 then w e else 0)
        = (if mapGet t e.1 = some e.2 then w e else 0) +
          (if e.1 = ok ∧ e.2 = ov then w e else 0) := by
      intro e _
      by_cases h : ok = e.1
      · subst h
        by_cases h2 : e.2 = ov
        · simp [mapGet, htk, h2]
        · simp [mapGet, htk, h2]
          exact fun hc => absurd hc.symm h2
      · simp only [mapGet, if_neg h]
        rw [if_neg (fun hc : e.1 = ok ∧ e.2 = ov => h hc.1.symm), add_zero]
    rw [List.map_congr_left hpt, sum_map_add2, ih hno.2,
      sum_pointMass new hnn ok ov w]
    simp only [List.map_cons, List.sum_cons]
    exact add_comm _ _

theorem cross_present (old new : JsMap)
    (hno : (old.map Prod.fst).Nodup) (hnn : (new.map Prod.fst).Nodup) :
    (new.map (fun e => if (mapGet old e.1).isSome = true then (1 : ℕ) else 0)).sum =
      (old.map (fun e => if (mapGet new e.1).isSome = true then (1 : ℕ) else 0)).sum := by
  induction old with
  | nil => simp [mapGet]
  | cons o t ih =>
    obtain ⟨ok, ov⟩ := o
    simp only [List.map_cons, List.nodup_cons] at hno
    have htk : mapGet t ok = none := (mapGet_eq_none_iff t ok).2 hno.1
    have hpt : ∀ e ∈ new, (if (mapGet ((ok, ov) :: t) e.1).isSome = true then (1 : ℕ) else 0)
        = (if (mapGet t e.1).isSome = true then (1 : ℕ) else 0) +
          (if e.1 = ok then (1 : ℕ) else 0) := by
      intro e _
      by_cases h : ok = e.1
      · subst h
        rw [htk]
        simp [mapGet]
      · simp only [mapGet, if_neg h]
        rw [if_neg (fun hc : e.1 = ok => h hc.symm), add_zero]
    rw [List.map_congr_left hpt, sum_map_add2, ih hno.2, count_pointMass new hnn ok]
    simp only [List.map_cons, List.sum_cons]
    exact add_comm _ _

/-! ### Partition lemmas for the three-way classification -/

theorem sum_map_one {α : Type} (l : List α) : (l.map (fun _ => (1 : ℕ))).sum = l.length := by
  induction l <;> simp [*, Nat.add_comm]

theorem classify_partition_count (probe l : JsMap) :
    l.countP (fun e => decide (mapGet probe e.1 = some e.2)) +
      l.countP (fun e =>
        decide ((mapGet probe e.1).isSome = true ∧ ¬mapGet probe e.1 = some e.2)) +
      l.countP (fun e => decide (mapGet probe e.1 = none)) = l.length := by
  rw [countP_eq_sum_map, countP_eq_sum_map, countP_eq_sum_map, ← sum_map_add3]
  have hpt : ∀ e ∈ l,
      ((if decide (mapGet probe e.1 = some e.2) = true then (1 : ℕ) else 0) +
        (if decide ((mapGet probe e.1).isSome = true ∧ ¬mapGet probe e.1 = some e.2) = true
          then (1 : ℕ) else 0) +
        (if decide (mapGet probe e.1 = none) = true then (1 : ℕ) else 0)) = 1 := by
    intro e _
    rcases hO : mapGet probe e.1 with _ | z
    · simp [hO]
    · by_cases h2 : z = e.2 <;> simp [hO, h2]
  rw [List.map_congr_left hpt, sum_map_one]

theorem stable_changed_eq_present_count (probe l : JsMap) :
    l.countP (fun e => decide (mapGet probe e.1 = some e.2)) +
      l.countP (fun e =>
        decide ((mapGet probe e.1).isSome = true ∧ ¬mapGet probe e.1 = some e.2)) =
      l.countP (fun e => decide ((mapGet probe e.1).isSome = true)) := by
  rw [countP_eq_sum_map, countP_eq_sum_map, countP_eq_sum_map, ← sum_map_add2]
  refine congrArg List.sum (List.map_congr_left ?_)
  intro e _
  rcases hO : mapGet probe e.1 with _ | z
  · simp [hO]
  · by_cases h2 : z = e.2 <;> simp [hO, h2]

theorem present_absent_partition_count (probe l : JsMap) :
    l.countP (fun e => decide ((mapGet probe e.1).isSome = true)) +
      l.countP (fun e => decide (mapGet probe e.1 = none)) = l.length := by
  rw [countP_eq_sum_map, countP_eq_sum_map, ← sum_map_add2]
  have hpt : ∀ e ∈ l,
      ((if decide ((mapGet probe e.1).isSome = true) = true then (1 : ℕ) else 0) +
        (if decide (mapGet probe e.1 = none) = true then (1 : ℕ) else 0)) = 1 := by
    intro e _
    rcases hO : mapGet probe e.1 with _ | z <;> simp [hO]
  rw [List.map_congr_left hpt, sum_map_one]

theorem countP_present_comm (old new : JsMap)
    (hno : (old.map Prod.fst).Nodup) (hnn : (new.map Prod.fst).Nodup) :
    new.countP (fun e => decide ((mapGet old e.1).isSome = true)) =
      old.countP (fun e => decide ((mapGet new e.1).isSome = true)) := by
  rw [countP_eq_sum_map, countP_eq_sum_map]
  simp only [decide_eq_true_eq]
  exact cross_present old new hno hnn

theorem classify_partition_bytes (probe l : JsMap) :
    (l.map (fun e => if mapGet probe e.1 = some e.2 then e.2 else 0)).sum +
      (l.map (fun e =>
        if (mapGet probe e.1).isSome = true ∧ ¬mapGet probe e.1 = some e.2 then e.2
        else 0)).sum +
      (l.map (fun e => if mapGet probe e.1 = none then e.2 else 0)).sum =
      (l.map (fun e => e.2)).sum := by
  rw [← sum_map_add3]
  refine congrArg List.sum (List.map_congr_left ?_)
  intro e _
  rcases hO : mapGet probe e.1 with _ | s
  · simp [hO]
  · by_cases h2 : s = e.2 <;> simp [hO, h2]

/-! ### Claim theorems about the comparator -/

/-- Claim C5: a path present in both manifests with different sizes is
classified as changed, and its contribution to `changedBytes` is the new
size: `changedFiles` counts exactly the entries of the new manifest whose
path also occurs in the old manifest with a different size, and
`changedBytes` is exactly the sum of the *new* sizes of those entries
(not the old sizes and not the deltas). -/
theorem c5_changed_uses_new_size (oldContent newContent : String) :
    (compareManifests oldContent newContent).changedFiles =
      (parseManifest newContent).countP (fun e =>
        decide ((mapGet (parseManifest oldContent) e.1).isSome = true ∧
          ¬mapGet (parseManifest oldContent) e.1 = some e.2)) ∧
    (compareManifests oldContent newContent).changedBytes =
      ((parseManifest newContent).map (fun e =>
        if (mapGet (parseManifest oldContent) e.1).isSome = true ∧
            ¬mapGet (parseManifest oldContent) e.1 = some e.2 then e.2
        else 0)).sum := by
  constructor <;> simp [compareManifests, newFold_char]

/-- Claim C6: for every pair of manifests, the file-count metrics satisfy
`stableFiles + changedFiles + addedFiles = totalNewFiles` and
`stableFiles + changedFiles + removedFiles = totalOldFiles`, with
`totalOldFiles` and `totalNewFiles` the sizes of the parsed old and new
manifests. -/
theorem c6_file_count_invariants (oldContent newContent : String) :
    (compareManifests oldContent newContent).totalOldFiles =
      (parseManifest oldContent).length ∧
    (compareManifests oldContent newContent).totalNewFiles =
      (parseManifest newContent).length ∧
    (compareManifests oldContent newContent).stableFiles +
      (compareManifests oldContent newContent).changedFiles +
      (compareManifests oldContent newContent).addedFiles =
      (compareManifests oldContent newContent).totalNewFiles ∧
    (compareManifests oldContent newContent).stableFiles +
      (compareManifests oldContent newContent).changedFiles +
      (compareManifests oldContent newContent).removedFiles =
      (compareManifests oldContent newContent).totalOldFiles := by
  refine ⟨by simp [compareManifests], by simp [compareManifests], ?_, ?_⟩
  · simp only [compareManifests, newFold_char, zero_add]
    exact classify_partition_count (parseManifest oldContent) (parseManifest newContent)
  · simp only [compareManifests, newFold_char, removedFold_char, zero_add]
    have h1 := stable_changed_eq_present_count (parseManifest oldContent)
      (parseManifest newContent)
    have h2 := countP_present_comm (parseManifest oldContent) (parseManifest newContent)
      (parseManifest_keys_nodup oldContent) (parseManifest_keys_nodup newContent)
    have h3 := present_absent_partition_count (parseManifest newContent)
      (parseManifest oldContent)
    omega

set_option maxRecDepth 100000 in
/-- Claim C1 as stated is false: with old manifest `"100  ./a"` and new
manifest `"200  ./a"` the path `./a` is changed, `changedBytes` is the new
size 200, and `stableBytes + changedBytes + removedBytes = 200` while
`totalOldBytes = 100` — the second claimed equation fails (the first
holds; see the amended theorem). -/
theorem c1_counterexample :
    ¬((compareManifests "100  ./a" "200  ./a").stableBytes +
        (compareManifests "100  ./a" "200  ./a").changedBytes +
        (compareManifests "100  ./a" "200  ./a").removedBytes =
        (compareManifests "100  ./a" "200  ./a").totalOldBytes) := by
  with_unfolding_all decide

/-- Claim C1 (amended): for every pair of manifests the byte metrics
satisfy `stableBytes + changedBytes + addedBytes = totalNewBytes`; the
second equation holds with the changed entries accounted at their *old*
sizes (`changedOldBytes`) instead of the returned `changedBytes` (which
deliberately accumulates the new sizes):
`stableBytes + changedOldBytes + removedBytes = totalOldBytes`. -/
theorem c1_bytes_invariants (oldContent newContent : String) :
    (compareManifests oldContent newContent).stableBytes +
      (compareManifests oldContent newContent).changedBytes +
      (compareManifests oldContent newContent).addedBytes =
      (compareManifests oldContent newContent).totalNewBytes ∧
    (compareManifests oldContent newContent).stableBytes +
      changedOldBytes oldContent newContent +
      (compareManifests oldContent newContent).removedBytes =
      (compareManifests oldContent newContent).totalOldBytes := by
  constructor
  · simp only [compareManifests, newFold_char, foldl_add_char, zero_add]
    exact classify_partition_bytes (parseManifest oldContent) (parseManifest newContent)
  · simp only [compareManifests, newFold_char, removedFold_char, foldl_add_char, zero_add]
    rw [cross_stable (parseManifest oldContent) (parseManifest newContent)
      (parseManifest_keys_nodup oldContent) (parseManifest_keys_nodup newContent)]
    have h := classify_partition_bytes (parseManifest newContent) (parseManifest oldContent)
    unfold changedOldBytes
    simpa using h

/-- Claim C4: the percentage fields follow the claimed formulas —
`(changedFiles + addedFiles) / totalNewFiles * 100` and
`stableFiles / totalNewFiles * 100` when `totalNewFiles > 0` and `0`
otherwise, and the byte-based percentages follow the same pattern keyed
on `totalNewBytes`.  In this exact-rational embedding every percentage
field is a total rational value, so no field is ever NaN and no
division-by-zero exception can occur. -/
theorem c4_percentages (oldContent newContent : String) :
    ((compareManifests oldContent newContent).downloadImpactFilesPercent =
      if 0 < (compareManifests oldContent newContent).totalNewFiles then
        (((compareManifests oldContent newContent).changedFiles : ℚ) +
          ((compareManifests oldContent newContent).addedFiles : ℚ)) /
          ((compareManifests oldContent newContent).totalNewFiles : ℚ) * 100
      else 0) ∧
    ((compareManifests oldContent newContent).cacheReuseFilesPercent =
      if 0 < (compareManifests oldContent newContent).totalNewFiles then
        ((compareManifests oldContent newContent).stableFiles : ℚ) /
          ((compareManifests oldContent newContent).totalNewFiles : ℚ) * 100
      else 0) ∧
    ((compareManifests oldContent newContent).downloadImpactBytesPercent =
      if 0 < (compareManifests oldContent newContent).totalNewBytes then
        ((compareManifests oldContent newContent).changedBytes +
          (compareManifests oldContent newContent).addedBytes) /
          (compareManifests oldContent newContent).totalNewBytes * 100
      else 0) ∧
    ((compareManifests oldContent newContent).cacheReuseBytesPercent =
      if 0 < (compareManifests oldContent newContent).totalNewBytes then
        (compareManifests oldContent newContent).stableBytes /
          (compareManifests oldContent newContent).totalNewBytes * 100
      else 0) := by
  refine ⟨?_, ?_, ?_, ?_⟩ <;>
    · simp only [compareManifests, newFold_char, removedFold_char, foldl_add_char, zero_add]
      split_ifs with h
      · push_cast
        rw [mul_div_right_comm]
      · rfl

set_option maxRecDepth 100000 in
/-- Claim C10: `parseManifest` accepts any size token that converts to a
finite number, including negative and fractional values — `"-5  ./a.js"`
and `"3.5  ./b.js"` are inserted with sizes `-5` and `3.5` — so the byte
metrics of `compareManifests` can be negative or non-integral (denominator
2 below) even though the data model describes sizes as non-negative
integers. -/
theorem c10_negative_fractional_sizes :
    parseManifest "-5  ./a.js" = [("./a.js", (-5 : ℚ))] ∧
    parseManifest "3.5  ./b.js" = [("./b.js", (7 : ℚ) / 2)] ∧
    (compareManifests "" "-5  ./a.js").addedBytes = -5 ∧
    (compareManifests "" "-5  ./a.js").totalNewBytes < 0 ∧
    (compareManifests "" "3.5  ./b.js").totalNewBytes = 7 / 2 ∧
    ((compareManifests "" "3.5  ./b.js").totalNewBytes).den = 2 := by
  with_unfolding_all decide

/-! ### Claim theorems about the remote manifest store -/

theorem loadRemoteManifest_read_not_none (er cr : TSshCommandResult)
    (h1 : er.spawnError = Option.none) (h2 : er.code = some 0) :
    loadRemoteManifest er cr ≠ TRemoteManifestResult.none := by
  unfold loadRemoteManifest
  rw [h1]
  simp only [h2, if_pos rfl]
  rcases cr.spawnError with _ | e
  · by_cases hc : cr.code = some 0 <;> simp [hc]
  · simp

/-- Claim C3: the baseline fetch returns the `none` variant exactly when
the existence check reports exit status 1 (the "file does not exist"
status of `test -f`) with empty trimmed diagnostic output and no
transport-level failure; every other non-success existence-check outcome —
a spawn failure, a missing or different exit code, or a non-empty
diagnostic — yields the `error` variant, never `none` and never `ok`. -/
theorem c3_none_iff_absent (existsResult contentResult : TSshCommandResult) :
    (loadRemoteManifest existsResult contentResult = TRemoteManifestResult.none ↔
      existsResult.spawnError = Option.none ∧ existsResult.code = some 1 ∧
        jsTrim existsResult.stderr.data = []) ∧
    ((¬existsResult.spawnError = Option.none ∨ ¬existsResult.code = some 0) →
      ¬(existsResult.spawnError = Option.none ∧ existsResult.code = some 1 ∧
        jsTrim existsResult.stderr.data = []) →
      ∃ reason,
        loadRemoteManifest existsResult contentResult =
          TRemoteManifestResult.error reason) := by
  constructor
  · constructor
    · intro h
      rcases hs : existsResult.spawnError with _ | e
      · by_cases h0 : existsResult.code = some 0
        · exact absurd h (loadRemoteManifest_read_not_none existsResult contentResult hs h0)
        · unfold loadRemoteManifest at h
          rw [hs] at h
          simp only [h0, if_neg h0] at h
          by_cases h1 : existsResult.code = some 1 ∧ jsTrim existsResult.stderr.data = []
          · exact ⟨rfl, h1⟩
          · rw [if_neg h1] at h
            cases h
      · unfold loadRemoteManifest at h
        rw [hs] at h
        cases h
    · rintro ⟨hs, h1, h2⟩
      unfold loadRemoteManifest
      rw [hs]
      have h0 : ¬existsResult.code = some 0 := by
        rw [h1]
        intro hc
        cases Option.some.inj hc
      rw [if_neg h0, if_pos ⟨h1, h2⟩]
  · intro hns habs
    rcases hs : existsResult.spawnError with _ | e
    · have h0 : ¬existsResult.code = some 0 := by
        rcases hns with hns | hns
        · exact absurd hs hns
        · exact hns
      have h1 : ¬(existsResult.code = some 1 ∧ jsTrim existsResult.stderr.data = []) := by
        intro hc
        exact habs ⟨hs, hc⟩
      exact ⟨_, by
        unfold loadRemoteManifest
        rw [hs, if_neg h0, if_neg h1]⟩
    · refine ⟨e, ?_⟩
      unfold loadRemoteManifest
      rw [hs]

/-- Witness for the C3 characterization: an existence check that exits
with status 1 and empty diagnostics and no spawn failure yields the
`none` variant. -/
theorem c3_none_iff_absent_witness :
    loadRemoteManifest ⟨some 1, "", "", Option.none⟩ ⟨some 0, "", "", Option.none⟩ =
      TRemoteManifestResult.none :=
  (c3_none_iff_absent ⟨some 1, "", "", Option.none⟩ ⟨some 0, "", "", Option.none⟩).1.2
    ⟨rfl, rfl, rfl⟩

/-! ### Claim theorems about the orchestration workflow -/

/-- Claim C7: with the upload-baseline flag false (dry run) the workflow
issues no persistence call whatever the outcome; with the flag true the
upload is issued exactly when the workflow reaches a successful
comparison (the client directory exists, the local manifest build
succeeded, and the baseline fetch did not fail), and when the issued
upload fails the failure propagates as the overall result with code
`CHURN_REMOTE_MANIFEST_UPLOAD_FAILED` instead of being swallowed. -/
theorem c7_upload_gating (env : TChurnEnv) :
    (computeClientChurn true env).2 = 0 ∧
    ((computeClientChurn false env).2 = 1 ↔
      env.clientDirExists = true ∧ (∃ c, env.localBuild = Except.ok c) ∧
        ∀ r, loadRemoteManifest env.existsResult env.contentResult ≠
          TRemoteManifestResult.error r) ∧
    (∀ e, uploadRemoteManifest env.uploadResult = Except.error e →
      (computeClientChurn false env).2 = 1 →
      (computeClientChurn false env).1 = Except.error e ∧
        e.1 = TChurnErrorCode.CHURN_REMOTE_MANIFEST_UPLOAD_FAILED) := by
  obtain ⟨dir, dirEx, lb, er, cr, ur⟩ := env
  cases dirEx
  · simp [computeClientChurn]
  · cases lb with
    | error m => simp [computeClientChurn]
    | ok c =>
      rcases hL : loadRemoteManifest er cr with _ | r | cc
      all_goals cases hU : uploadRemoteManifest ur with
        | error e =>
          obtain ⟨ec, em⟩ := e
          have hec : ec = TChurnErrorCode.CHURN_REMOTE_MANIFEST_UPLOAD_FAILED := by
            unfold uploadRemoteManifest at hU
            rcases hsp : ur.spawnError with _ | sp
            · simp only [hsp] at hU
              by_cases h0 : ur.code = some 0
              · simp [h0] at hU
              · rw [if_neg h0] at hU
                injection hU with h1
                exact (Prod.mk.inj h1).1.symm
            · simp only [hsp] at hU
              injection hU with h1
              exact (Prod.mk.inj h1).1.symm
          subst hec
          simp [computeClientChurn, hL, hU]
          try exact ⟨⟨c, rfl⟩, fun r => by simp [hL]⟩
        | ok u =>
          simp [computeClientChurn, hL, hU]
          try exact ⟨⟨c, rfl⟩, fun r => by simp [hL]⟩

/-- Witness for C7 at a concrete environment: a failing upload (spawn
failure "boom") after a successful comparison propagates as
`CHURN_REMOTE_MANIFEST_UPLOAD_FAILED` with the diagnostic preserved. -/
theorem c7_upload_gating_witness :
    (computeClientChurn false ⟨"d", true, Except.ok "", ⟨some 1, "", "", Option.none⟩,
        ⟨some 0, "", "", Option.none⟩, ⟨some 1, "", "", some "boom"⟩⟩).1 =
      Except.error (TChurnErrorCode.CHURN_REMOTE_MANIFEST_UPLOAD_FAILED, "boom") :=
  ((c7_upload_gating ⟨"d", true, Except.ok "", ⟨some 1, "", "", Option.none⟩,
      ⟨some 0, "", "", Option.none⟩, ⟨some 1, "", "", some "boom"⟩⟩).2.2
    (TChurnErrorCode.CHURN_REMOTE_MANIFEST_UPLOAD_FAILED, "boom") rfl rfl).1

/-! ### Claim theorem for shell quoting -/

theorem shUnq_single_escaped (l rest : List Char) :
    shUnq QMode.single (l.flatMap escChar ++ '\'' :: rest) =
      (shUnq QMode.plain rest).map (l ++ ·) := by
  induction l with
  | nil =>
    simp only [List.flatMap_nil, List.nil_append, shUnq, if_pos rfl]
    cases shUnq QMode.plain rest <;> simp
  | cons c t ih =>
    by_cases h : c = '\''
    · subst h
      simp only [List.flatMap_cons, escChar, if_pos rfl, if_true, List.cons_append,
        List.append_assoc, List.nil_append]
      simp [shUnq, ih]
      cases shUnq QMode.plain rest <;> simp
    · simp only [List.flatMap_cons, escChar, if_neg h, List.singleton_append, shUnq, if_neg h,
        List.append_eq]
      rw [ih]
      cases shUnq QMode.plain rest <;> simp

/-- Claim C9: the shell-quoting function wraps the value in single quotes
with each embedded single quote rewritten to close-quote, escaped quote,
reopen-quote, and un-quoting its output under the reference POSIX word
grammar recovers the original string exactly — for every string value,
including values with single quotes, spaces, and shell metacharacters. -/
theorem c9_shell_quote_roundtrip (value : String) :
    shUnquote (shellQuoteSingle value) = some value := by
  unfold shUnquote shellQuoteSingle
  have h1 : (String.mk ('\'' :: (value.data.flatMap escChar ++ ['\'']))).data =
      '\'' :: (value.data.flatMap escChar ++ ['\'']) := rfl
  rw [h1]
  have h2 : shUnq QMode.plain ('\'' :: (value.data.flatMap escChar ++ ['\''])) =
      shUnq QMode.single (value.data.flatMap escChar ++ '\'' :: []) := by
    simp [shUnq]
  rw [h2, shUnq_single_escaped]
  simp only [shUnq, Option.map_some]
  simp

/-! ### Structure of trimming and whitespace splitting -/

theorem head_dropWhile_not {α : Type} (p : α → Bool) (l : List α) (c : α) (t : List α)
    (h : l.dropWhile p = c :: t) : ¬p c = true := by
  induction l with
  | nil => cases h
  | cons x xs ih =>
    by_cases hx : p x
    · rw [List.dropWhile_cons_of_pos hx] at h
      exact ih h
    · rw [List.dropWhile_cons_of_neg hx] at h
      cases h
      exact hx

theorem dropWhile_append_singleton {α : Type} (p : α → Bool) (xs : List α) (c : α)
    (h : ¬p c = true) : (xs ++ [c]).dropWhile p = xs.dropWhile p ++ [c] := by
  induction xs with
  | nil => simp [List.dropWhile_cons_of_neg h, List.dropWhile_nil]
  | cons x t ih =>
    by_cases hx : p x
    · simp [List.dropWhile_cons_of_pos hx, ih]
    · simp [List.dropWhile_cons_of_neg hx]

theorem jsTrim_shape (l : List Char) :
    jsTrim l = [] ∨ ∃ c t, jsTrim l = c :: t ∧ ¬isJsWhitespace c = true := by
  unfold jsTrim
  cases hD : l.dropWhile isJsWhitespace with
  | nil => left; simp
  | cons c t =>
    right
    have hc := head_dropWhile_not isJsWhitespace l c t hD
    refine ⟨c, ((t.reverse.dropWhile isJsWhitespace).reverse), ?_, hc⟩
    rw [List.reverse_cons, dropWhile_append_singleton isJsWhitespace t.reverse c hc]
    simp

theorem splitWsAux_acc_ne_nil (l acc : List Char) (h : acc ≠ []) :
    splitWsAux l acc ≠ [] := by
  induction l generalizing acc with
  | nil =>
    unfold splitWsAux
    rw [if_neg (by simpa using h)]
    simp
  | cons c t ih =>
    unfold splitWsAux
    by_cases hc : isJsWhitespace c
    · rw [if_pos hc, if_neg (by simpa using h)]
      simp
    · rw [if_neg hc]
      exact ih (c :: acc) (by simp)

theorem splitWs_jsTrim_ne_nil (l : List Char) (h : jsTrim l ≠ []) :
    splitWsAux (jsTrim l) [] ≠ [] := by
  rcases jsTrim_shape l with hT | ⟨c, t, hT, hc⟩
  · exact absurd hT h
  · rw [hT]
    unfold splitWsAux
    rw [if_neg hc]
    exact splitWsAux_acc_ne_nil t [c] (by simp)

/-! ### Claim theorem for malformed-tolerant parsing -/

theorem lineEntry_eq_spec (line : List Char) : lineEntry? line = lineEntrySpec line := by
  unfold lineEntry? lineEntrySpec
  by_cases hT : (jsTrim line).isEmpty
  · rw [if_pos hT, List.isEmpty_iff.1 hT]
    rfl
  · rw [if_neg hT]
    cases hS : splitWsAux (jsTrim line) [] with
    | nil => rfl
    | cons tok rest =>
      cases hN : jsNumberFinite? tok with
      | none => cases hJ : joinSpace rest <;> simp [hN, hJ]
      | some sz => cases hJ : joinSpace rest <;> simp [hN, hJ]

/-- Claim C8: `parseManifest` is a total function on arbitrary input
strings (never throws), and it drops exactly the malformed lines: the
parse is the fold of the specification's per-line rule over the
newline-split input, and the per-line rule drops a line exactly when the
line is blank after trimming, or its size token does not convert to a
finite number, or its remaining path is empty; every other line is
inserted. -/
theorem c8_parse_total_drops_malformed (content : String) :
    (parseManifest content =
      (splitNlAux content.data []).foldl (fun map line =>
        match lineEntrySpec line with
        | none => map
        | some e => mapSet map e.1 e.2) []) ∧
    (∀ line : List Char, lineEntrySpec line = none ↔
      jsTrim line = [] ∨
        ∃ tok pathParts, splitWsAux (jsTrim line) [] = tok :: pathParts ∧
          (jsNumberFinite? tok = none ∨ joinSpace pathParts = [])) := by
  constructor
  · unfold parseManifest
    have hfun : (fun (map : JsMap) (line : List Char) =>
        match lineEntry? line with
        | none => map
        | some (filePath, size) => mapSet map filePath size) =
        (fun (map : JsMap) (line : List Char) =>
          match lineEntrySpec line with
          | none => map
          | some e => mapSet map e.1 e.2) := by
      funext map line
      rw [lineEntry_eq_spec]
      rcases lineEntrySpec line with _ | ⟨p, sz⟩ <;> rfl
    rw [hfun]
  · intro line
    constructor
    · intro h
      by_cases hT : jsTrim line = []
      · exact Or.inl hT
      · right
        cases hS : splitWsAux (jsTrim line) [] with
        | nil => exact absurd hS (splitWs_jsTrim_ne_nil line hT)
        | cons tok rest =>
          refine ⟨tok, rest, rfl, ?_⟩
          unfold lineEntrySpec at h
          rw [hS] at h
          cases hN : jsNumberFinite? tok with
          | none => exact Or.inl rfl
          | some sz =>
            right
            cases hJ : joinSpace rest with
            | nil => rfl
            | cons c cs => simp [hN, hJ] at h
    · intro h
      rcases h with hT | ⟨tok, rest, hS, hbad⟩
      · unfold lineEntrySpec
        rw [hT]
        rfl
      · unfold lineEntrySpec
        rw [hS]
        rcases hbad with hN | hJ
        · cases hJ2 : joinSpace rest <;> simp [hN, hJ2]
        · cases hN2 : jsNumberFinite? tok <;> simp [hN2, hJ]

/-! ### Decimal rendering of sizes and its parse -/

theorem digitChar_isDigit (d : ℕ) (h : d < 10) : isDigitChar (digitChar d) = true := by
  interval_cases d <;> decide

theorem digitChar_not_ws (d : ℕ) (h : d < 10) : isJsWhitespace (digitChar d) = false := by
  interval_cases d <;> decide

theorem digitVal_digitChar (d : ℕ) (h : d < 10) : digitVal (digitChar d) = d := by
  interval_cases d <;> decide

theorem decDigitsVal_from (a : ℕ) (l : List Char) :
    l.foldl (fun a c => a * 10 + digitVal c) a = a * 10 ^ l.length + decDigitsVal l := by
  induction l generalizing a with
  | nil => simp [decDigitsVal]
  | cons c t ih =>
    have h1 : decDigitsVal (c :: t) = digitVal c * 10 ^ t.length + decDigitsVal t := by
      simp only [decDigitsVal, List.foldl_cons]
      rw [ih (0 * 10 + digitVal c)]
      simp only [decDigitsVal]
      ring
    rw [List.foldl_cons, ih (a * 10 + digitVal c), h1, List.length_cons]
    ring

theorem natToDecimalAux_all (P : Char → Prop) (hP : ∀ d, d < 10 → P (digitChar d)) :
    ∀ (fuel n : ℕ) (acc : List Char), (∀ c ∈ acc, P c) →
      ∀ c ∈ natToDecimalAux fuel n acc, P c := by
  intro fuel
  induction fuel with
  | zero => intro n acc hacc c hc; exact hacc c hc
  | succ fuel ih =>
    intro n acc hacc c hc
    cases n with
    | zero => exact hacc c hc
    | succ m =>
      refine ih ((m + 1) / 10) (digitChar ((m + 1) % 10) :: acc) ?_ c hc
      intro x hx
      rcases List.mem_cons.1 hx with hx | hx
      · exact hx ▸ hP ((m + 1) % 10) (Nat.mod_lt _ (by norm_num))
      · exact hacc x hx

theorem natToDecimal_all (P : Char → Prop) (hP : ∀ d, d < 10 → P (digitChar d)) (n : ℕ) :
    ∀ c ∈ natToDecimal n, P c := by
  intro c hc
  unfold natToDecimal at hc
  by_cases h0 : n = 0
  · rw [if_pos h0] at hc
    rcases List.mem_singleton.1 hc with rfl
    exact hP 0 (by norm_num)
  · rw [if_neg h0] at hc
    exact natToDecimalAux_all P hP n n [] (by simp) c hc

theorem natToDecimalAux_val :
    ∀ (fuel n : ℕ) (acc : List Char), n ≤ fuel →
      decDigitsVal (natToDecimalAux fuel n acc) = n * 10 ^ acc.length + decDigitsVal acc := by
  intro fuel
  induction fuel with
  | zero =>
    intro n acc h
    have : n = 0 := Nat.le_zero.1 h
    subst this
    simp [natToDecimalAux]
  | succ fuel ih =>
    intro n acc h
    cases n with
    | zero => simp [natToDecimalAux]
    | succ m =>
      have hdiv : (m + 1) / 10 ≤ fuel := by
        have := Nat.div_lt_self (Nat.succ_pos m) (show 1 < 10 by norm_num)
        omega
      rw [show natToDecimalAux (fuel + 1) (m + 1) acc =
          natToDecimalAux fuel ((m + 1) / 10) (digitChar ((m + 1) % 10) :: acc) from rfl,
        ih ((m + 1) / 10) _ hdiv]
      have hdc : decDigitsVal (digitChar ((m + 1) % 10) :: acc) =
          (m + 1) % 10 * 10 ^ acc.length + decDigitsVal acc := by
        simp only [decDigitsVal, List.foldl_cons]
        rw [decDigitsVal_from, digitVal_digitChar _ (Nat.mod_lt _ (by norm_num))]
        simp only [decDigitsVal]
        ring
      rw [hdc, List.length_cons]
      have hmod := Nat.div_add_mod (m + 1) 10
      calc (m + 1) / 10 * 10 ^ (acc.length + 1) +
            ((m + 1) % 10 * 10 ^ acc.length + decDigitsVal acc)
          = ((m + 1) / 10 * 10 + (m + 1) % 10) * 10 ^ acc.length + decDigitsVal acc := by ring
        _ = (m + 1) * 10 ^ acc.length + decDigitsVal acc := by
          have h10 : (m + 1) / 10 * 10 + (m + 1) % 10 = m + 1 := by omega
          rw [h10]

theorem decDigitsVal_natToDecimal (n : ℕ) : decDigitsVal (natToDecimal n) = n := by
  unfold natToDecimal
  by_cases h0 : n = 0
  · rw [if_pos h0, h0]
    decide
  · rw [if_neg h0, natToDecimalAux_val n n [] (le_refl n)]
    simp [decDigitsVal]

theorem natToDecimalAux_append :
    ∀ (fuel n : ℕ) (acc : List Char), ∃ ds, natToDecimalAux fuel n acc = ds ++ acc := by
  intro fuel
  induction fuel with
  | zero => intro n acc; exact ⟨[], rfl⟩
  | succ fuel ih =>
    intro n acc
    cases n with
    | zero => exact ⟨[], rfl⟩
    | succ m =>
      obtain ⟨ds, hds⟩ := ih ((m + 1) / 10) (digitChar ((m + 1) % 10) :: acc)
      exact ⟨ds ++ [digitChar ((m + 1) % 10)], by
        rw [show natToDecimalAux (fuel + 1) (m + 1) acc =
            natToDecimalAux fuel ((m + 1) / 10) (digitChar ((m + 1) % 10) :: acc) from rfl,
          hds]
        simp⟩

theorem natToDecimal_ne_nil (n : ℕ) : natToDecimal n ≠ [] := by
  unfold natToDecimal
  by_cases h0 : n = 0
  · rw [if_pos h0]
    simp
  · rw [if_neg h0]
    cases n with
    | zero => exact absurd rfl h0
    | succ m =>
      obtain ⟨ds, hds⟩ := natToDecimalAux_append m ((m + 1) / 10)
        (digitChar ((m + 1) % 10) :: [])
      rw [show natToDecimalAux (m + 1) (m + 1) [] =
          natToDecimalAux m ((m + 1) / 10) (digitChar ((m + 1) % 10) :: []) from rfl, hds]
      simp

theorem takeWhile_all {α : Type} (p : α → Bool) (l : List α) (h : ∀ c ∈ l, p c = true) :
    l.takeWhile p = l := by
  induction l with
  | nil => rfl
  | cons c t ih =>
    rw [List.takeWhile_cons_of_pos (h c (by simp)), ih (fun c hc => h c (by simp [hc]))]

theorem dropWhile_all {α : Type} (p : α → Bool) (l : List α) (h : ∀ c ∈ l, p c = true) :
    l.dropWhile p = [] := by
  induction l with
  | nil => rfl
  | cons c t ih =>
    rw [List.dropWhile_cons_of_pos (h c (by simp)), ih (fun c hc => h c (by simp [hc]))]

theorem isDigitChar_elim (c : Char) (h : isDigitChar c = true) :
    ¬c = '+' ∧ ¬c = '-' ∧ ¬c = 'I' ∧ ¬c = 'x' ∧ ¬c = 'X' ∧ ¬c = 'o' ∧ ¬c = 'O' ∧
      ¬c = 'b' ∧ ¬c = 'B' := by
  refine ⟨?_, ?_, ?_, ?_, ?_, ?_, ?_, ?_, ?_⟩ <;>
    · intro he
      subst he
      exact absurd h (by decide)

theorem parseUnsignedDec_digits (l : List Char) (hne : l ≠ [])
    (hd : ∀ c ∈ l, isDigitChar c = true) :
    parseUnsignedDec l = some ((decDigitsVal l : ℚ)) := by
  unfold parseUnsignedDec
  rw [takeWhile_all _ _ hd, dropWhile_all _ _ hd]
  simp [hne]

theorem parseSignedDec_digits (l : List Char) (hne : l ≠ [])
    (hd : ∀ c ∈ l, isDigitChar c = true) :
    parseSignedDec l = some ((decDigitsVal l : ℚ)) := by
  cases l with
  | nil => exact absurd rfl hne
  | cons c t =>
    have hc := isDigitChar_elim c (hd c (by simp))
    unfold parseSignedDec
    have hm : (match c :: t with
        | '+' :: t => ((1 : ℚ), t)
        | '-' :: t => ((-1 : ℚ), t)
        | t => ((1 : ℚ), t)) = ((1 : ℚ), c :: t) := by
      split
      · rename_i heq
        cases heq
        exact absurd rfl hc.1
      · rename_i heq
        cases heq
        exact absurd rfl hc.2.1
      · rfl
    rw [hm]
    simp only []
    rw [if_neg (fun he : c :: t = ['I', 'n', 'f', 'i', 'n', 'i', 't', 'y'] =>
        hc.2.2.1 (List.cons.inj he).1),
      parseUnsignedDec_digits (c :: t) hne hd]
    simp

set_option maxRecDepth 10000 in
theorem jsNumberFinite?_digits (l : List Char) (hne : l ≠ [])
    (hd : ∀ c ∈ l, isDigitChar c = true)
    (hb : (decDigitsVal l : ℚ) < jsFiniteBound) :
    jsNumberFinite? l = some ((decDigitsVal l : ℚ)) := by
  have hsd := parseSignedDec_digits l hne hd
  have hfin : ((some ((decDigitsVal l : ℚ))).bind fun v =>
      if jsFiniteBound ≤ |v| then none else some v) = some ((decDigitsVal l : ℚ)) := by
    rw [Option.some_bind, abs_of_nonneg (by positivity), if_neg (not_le.2 hb)]
  unfold jsNumberFinite?
  split
  · exact absurd rfl hne
  · rename_i c1 rest
    have hc2 := isDigitChar_elim c1 (hd c1 (by simp))
    rw [if_neg (fun hor => hor.elim hc2.2.2.2.1 hc2.2.2.2.2.1),
      if_neg (fun hor => hor.elim hc2.2.2.2.2.2.1 hc2.2.2.2.2.2.2.1),
      if_neg (fun hor => hor.elim hc2.2.2.2.2.2.2.2.1 hc2.2.2.2.2.2.2.2.2), hsd]
    exact hfin
  · rw [hsd]
    exact hfin

/-! ### Whitespace-splitting structure of serialized lines -/

theorem splitWsAux_ws_skip (r : List Char) : splitWsAux (' ' :: r) [] = splitWsAux r [] := by
  conv_lhs => rw [splitWsAux]
  rw [if_pos (by decide)]
  simp

theorem splitWsAux_chunk (a : List Char) :
    ∀ (acc r : List Char), (∀ c ∈ a, isJsWhitespace c = false) → acc.reverse ++ a ≠ [] →
      splitWsAux (a ++ ' ' :: r) acc = (acc.reverse ++ a) :: splitWsAux r [] := by
  induction a with
  | nil =>
    intro acc r _ hne
    simp only [List.nil_append, List.append_nil] at *
    conv_lhs => rw [splitWsAux]
    rw [if_pos (by decide), if_neg (by simpa using fun h => hne (by simp [h]))]
  | cons c t ih =>
    intro acc r hnws hne
    have hc : isJsWhitespace c = false := hnws c (by simp)
    simp only [List.cons_append]
    conv_lhs => rw [splitWsAux]
    rw [if_neg (by simp [hc])]
    rw [ih (c :: acc) r (fun x hx => hnws x (by simp [hx])) (by simp)]
    simp

theorem splitWsAux_chunks_prop (l : List Char) :
    ∀ acc, (∀ c ∈ acc, isJsWhitespace c = false) →
      ∀ ch ∈ splitWsAux l acc, ch ≠ [] ∧ ∀ c ∈ ch, isJsWhitespace c = false := by
  induction l with
  | nil =>
    intro acc hacc ch hch
    unfold splitWsAux at hch
    by_cases he : acc.isEmpty
    · rw [if_pos he] at hch
      cases hch
    · rw [if_neg he] at hch
      rcases List.mem_singleton.1 hch with rfl
      refine ⟨by simpa using fun h => he (by simp [h]), ?_⟩
      intro c hc
      exact hacc c (List.mem_reverse.1 hc)
  | cons c t ih =>
    intro acc hacc ch hch
    unfold splitWsAux at hch
    by_cases hc : isJsWhitespace c
    · rw [if_pos hc] at hch
      by_cases he : acc.isEmpty
      · rw [if_pos he] at hch
        exact ih [] (by simp) ch hch
      · rw [if_neg he] at hch
        rcases List.mem_cons.1 hch with rfl | hch
        · refine ⟨by simpa using fun h => he (by simp [h]), ?_⟩
          intro x hx
          exact hacc x (List.mem_reverse.1 hx)
        · exact ih [] (by simp) ch hch
    · rw [if_neg hc] at hch
      refine ih (c :: acc) ?_ ch hch
      intro x hx
      rcases List.mem_cons.1 hx with rfl | hx
      · exact eq_false_of_ne_true hc
      · exact hacc x hx

theorem joinSpace_ne_nil (chs : List (List Char)) (hne : chs ≠ [])
    (h : ∀ ch ∈ chs, ch ≠ [] ∧ ∀ c ∈ ch, isJsWhitespace c = false) :
    joinSpace chs ≠ [] := by
  cases chs with
  | nil => exact absurd rfl hne
  | cons ch t =>
    cases t with
    | nil => exact (h ch (by simp)).1
    | cons ch2 t2 =>
      have h1 : ch ≠ [] := (h ch (by simp)).1
      cases ch with
      | nil => exact absurd rfl h1
      | cons c cs => simp [joinSpace]

theorem joinSpace_head_not_ws (chs : List (List Char))
    (h : ∀ ch ∈ chs, ch ≠ [] ∧ ∀ c ∈ ch, isJsWhitespace c = false)
    (c : Char) (t : List Char) (hj : joinSpace chs = c :: t) :
    isJsWhitespace c = false := by
  cases chs with
  | nil => cases hj
  | cons ch rest =>
    have h1 := h ch (by simp)
    cases ch with
    | nil => exact absurd rfl h1.1
    | cons x xs =>
      cases rest with
      | nil =>
        rw [show joinSpace [x :: xs] = x :: xs from rfl] at hj
        cases hj
        exact h1.2 c (by simp)
      | cons ch2 rest2 =>
        rw [show joinSpace ((x :: xs) :: ch2 :: rest2) =
            (x :: xs) ++ ' ' :: joinSpace (ch2 :: rest2) from rfl, List.cons_append] at hj
        cases hj
        exact h1.2 c (by simp)

theorem joinSpace_getLast_not_ws (chs : List (List Char))
    (h : ∀ ch ∈ chs, ch ≠ [] ∧ ∀ c ∈ ch, isJsWhitespace c = false)
    (hne : joinSpace chs ≠ []) :
    isJsWhitespace ((joinSpace chs).getLast hne) = false := by
  induction chs with
  | nil => simp [joinSpace] at hne
  | cons ch t ih =>
    cases t with
    | nil =>
      have h1 := h ch (by simp)
      have hch : ch ≠ [] := h1.1
      have hcongr : (joinSpace [ch]).getLast hne = ch.getLast hch :=
        List.getLast_congr _ _ rfl
      rw [hcongr]
      exact h1.2 _ (List.getLast_mem hch)
    | cons ch2 t2 =>
      have hJ2 : joinSpace (ch2 :: t2) ≠ [] := by
        refine joinSpace_ne_nil (ch2 :: t2) (by simp) ?_
        intro x hx
        exact h x (by simp [hx])
      have hstep : joinSpace (ch :: ch2 :: t2) = ch ++ ' ' :: joinSpace (ch2 :: t2) := by
        cases ch <;> rfl
      have hlast : (joinSpace (ch :: ch2 :: t2)).getLast hne =
          (joinSpace (ch2 :: t2)).getLast hJ2 := by
        have hne2 : ch ++ ' ' :: joinSpace (ch2 :: t2) ≠ [] := by simp
        rw [List.getLast_congr hne hne2 hstep,
          List.getLast_append_of_ne_nil (List.cons_ne_nil _ _)]
        exact List.getLast_cons hJ2
      rw [hlast]
      refine ih ?_ hJ2
      intro x hx
      exact h x (by simp [hx])

theorem jsTrim_eq_self (l : List Char) (hne : l ≠ [])
    (hh : isJsWhitespace (l.head hne) = false)
    (hl : isJsWhitespace (l.getLast hne) = false) : jsTrim l = l := by
  unfold jsTrim
  have h1 : l.dropWhile isJsWhitespace = l := by
    cases l with
    | nil => rfl
    | cons c t => exact List.dropWhile_cons_of_neg (by simpa using hh)
  rw [h1]
  have h2 : l.reverse.dropWhile isJsWhitespace = l.reverse := by
    cases hr : l.reverse with
    | nil => rfl
    | cons c t =>
      have hrne : l.reverse ≠ [] := hr ▸ List.cons_ne_nil c t
      have hc : l.reverse.head hrne = l.getLast hne := List.head_reverse hrne
      have hceq : c = l.getLast hne := by
        rw [← hc]
        simp [hr]
      rw [List.dropWhile_cons_of_neg (by rw [hceq]; simpa using hl)]
  rw [h2, List.reverse_reverse]

theorem jsTrim_eq_self_concat (c : Char) (mid : List Char) (d : Char)
    (hc : isJsWhitespace c = false) (hd : isJsWhitespace d = false) :
    jsTrim (c :: (mid ++ [d])) = c :: (mid ++ [d]) := by
  unfold jsTrim
  rw [List.dropWhile_cons_of_neg (by simp [hc])]
  have hrev : (c :: (mid ++ [d])).reverse = d :: (mid.reverse ++ [c]) := by simp
  rw [hrev, List.dropWhile_cons_of_neg (by simp [hd]), ← hrev, List.reverse_reverse]

theorem lineEntry_manifestLine (p : String) (n : ℕ) (hp : goodPath p) (hn : n < 2 ^ 1024) :
    lineEntry? (manifestLine (p, n)) = some (p, (n : ℚ)) := by
  obtain ⟨hpne, hpj⟩ := hp
  have hchprop := splitWsAux_chunks_prop p.data [] (by simp)
  have hdig : ∀ c ∈ natToDecimal n, isDigitChar c = true :=
    natToDecimal_all (fun c => isDigitChar c = true) digitChar_isDigit n
  have hdnw : ∀ c ∈ natToDecimal n, isJsWhitespace c = false :=
    natToDecimal_all (fun c => isJsWhitespace c = false) digitChar_not_ws n
  have hdne := natToDecimal_ne_nil n
  have hpjne : joinSpace (splitWsAux p.data []) ≠ [] := by rw [hpj]; exact hpne
  have hplast0 := joinSpace_getLast_not_ws (splitWsAux p.data []) hchprop hpjne
  rw [List.getLast_congr hpjne hpne hpj] at hplast0
  obtain ⟨d0, dt, hdd⟩ : ∃ d0 dt, natToDecimal n = d0 :: dt := by
    cases hd : natToDecimal n with
    | nil => exact absurd hd hdne
    | cons d0 dt => exact ⟨d0, dt, rfl⟩
  obtain ⟨q, dlast, hqd⟩ : ∃ q dlast, p.data = q ++ [dlast] := by
    rcases List.eq_nil_or_concat p.data with h | ⟨q, dlast, h⟩
    · exact absurd h hpne
    · exact ⟨q, dlast, by rw [h, List.concat_eq_append]⟩
  have hdlast : isJsWhitespace dlast = false := by
    have hgl : p.data.getLast hpne = dlast := by
      rw [List.getLast_congr hpne (by simp) hqd]
      exact List.getLast_append_singleton q
    rwa [hgl] at hplast0
  have hshape : manifestLine (p, n) = d0 :: ((dt ++ ' ' :: ' ' :: q) ++ [dlast]) := by
    show natToDecimal n ++ ' ' :: ' ' :: p.data = _
    rw [hdd, hqd]
    simp
  have htrim : jsTrim (manifestLine (p, n)) = manifestLine (p, n) := by
    rw [hshape]
    exact jsTrim_eq_self_concat d0 (dt ++ ' ' :: ' ' :: q) dlast
      (hdnw d0 (by rw [hdd]; simp)) hdlast
  have hlne : manifestLine (p, n) ≠ [] := by
    rw [hshape]
    simp
  have hsplit : splitWsAux (manifestLine (p, n)) [] =
      natToDecimal n :: splitWsAux p.data [] := by
    show splitWsAux (natToDecimal n ++ ' ' :: (' ' :: p.data)) [] = _
    rw [splitWsAux_chunk (natToDecimal n) [] (' ' :: p.data) hdnw (by simpa using hdne),
      splitWsAux_ws_skip]
    simp
  have hbound : ((decDigitsVal (natToDecimal n) : ℕ) : ℚ) < jsFiniteBound := by
    rw [decDigitsVal_natToDecimal]
    unfold jsFiniteBound
    exact_mod_cast hn
  have hnum := jsNumberFinite?_digits (natToDecimal n) hdne hdig hbound
  rw [decDigitsVal_natToDecimal] at hnum
  simp only [lineEntry?]
  rw [htrim, hsplit, if_neg (by simpa using hlne)]
  simp only [hnum, hpj]
  rw [if_neg (by simpa using hpne)]

/-! ### Last-write-wins lookup through the parse fold -/

theorem lookupLast_mem (es : List (String × ℚ)) (hn : (es.map Prod.fst).Nodup)
    (p : String) : ∀ v, lookupLast es p = some v ↔ (p, v) ∈ es := by
  induction es with
  | nil => intro v; simp [lookupLast]
  | cons e t ih =>
    intro v
    obtain ⟨a, b⟩ := e
    simp only [List.map_cons, List.nodup_cons] at hn
    have iht := ih hn.2
    simp only [lookupLast, List.mem_cons]
    cases hL : lookupLast t p with
    | some w =>
      have hw : (p, w) ∈ t := (iht w).1 hL
      have hpk : p ∈ t.map Prod.fst := List.mem_map.2 ⟨(p, w), hw, rfl⟩
      show some w = some v ↔ (p, v) = (a, b) ∨ (p, v) ∈ t
      constructor
      · intro h
        exact Or.inr (Option.some.inj h ▸ hw)
      · rintro (h | h)
        · obtain ⟨hpa, hvb⟩ := Prod.mk.inj h
          exact absurd (hpa ▸ hpk) hn.1
        · rw [← hL, (iht v).2 h]
    | none =>
      show (if a = p then some b else none) = some v ↔ (p, v) = (a, b) ∨ (p, v) ∈ t
      constructor
      · intro h
        by_cases he : a = p
        · rw [if_pos he] at h
          left
          rw [← he, ← Option.some.inj h]
        · rw [if_neg he] at h
          cases h
      · rintro (h | h)
        · obtain ⟨hpa, hvb⟩ := Prod.mk.inj h
          rw [if_pos hpa.symm, hvb]
        · rw [(iht v).2 h] at hL
          cases hL

theorem mapGet_mem (es : List (String × ℚ)) (hn : (es.map Prod.fst).Nodup)
    (p : String) : ∀ v, mapGet es p = some v ↔ (p, v) ∈ es := by
  induction es with
  | nil => intro v; simp [mapGet]
  | cons e t ih =>
    intro v
    obtain ⟨a, b⟩ := e
    simp only [List.map_cons, List.nodup_cons] at hn
    have iht := ih hn.2
    simp only [List.mem_cons]
    show (if a = p then some b else mapGet t p) = some v ↔ (p, v) = (a, b) ∨ (p, v) ∈ t
    by_cases he : a = p
    · rw [if_pos he]
      constructor
      · intro h
        left
        rw [← he, ← Option.some.inj h]
      · rintro (h | h)
        · obtain ⟨hpa, hvb⟩ := Prod.mk.inj h
          rw [hvb]
        · have hpk : p ∈ t.map Prod.fst := List.mem_map.2 ⟨(p, v), h, rfl⟩
          exact absurd (he.symm ▸ hpk) hn.1
    · rw [if_neg he, iht v]
      constructor
      · exact Or.inr
      · rintro (h | h)
        · obtain ⟨hpa, _⟩ := Prod.mk.inj h
          exact absurd hpa.symm he
        · exact h

theorem lookupLast_eq_mapGet (es : List (String × ℚ)) (hn : (es.map Prod.fst).Nodup)
    (p : String) : lookupLast es p = mapGet es p := by
  cases h : mapGet es p with
  | some v => exact (lookupLast_mem es hn p v).2 ((mapGet_mem es hn p v).1 h)
  | none =>
    cases h2 : lookupLast es p with
    | none => rfl
    | some v =>
      rw [(mapGet_mem es hn p v).2 ((lookupLast_mem es hn p v).1 h2)] at h
      cases h

theorem lookupLast_perm (es es' : List (String × ℚ)) (hperm : es.Perm es')
    (hn : (es.map Prod.fst).Nodup) (p : String) :
    lookupLast es p = lookupLast es' p := by
  have hn' : (es'.map Prod.fst).Nodup := ((hperm.map Prod.fst).nodup_iff).1 hn
  cases h : lookupLast es p with
  | some v =>
    exact ((lookupLast_mem es' hn' p v).2 (hperm.mem_iff.1 ((lookupLast_mem es hn p v).1 h))).symm
  | none =>
    cases h' : lookupLast es' p with
    | none => rfl
    | some v =>
      rw [(lookupLast_mem es hn p v).2 (hperm.mem_iff.2 ((lookupLast_mem es' hn' p v).1 h'))] at h
      cases h

theorem parse_foldl_lookup (ls : List (List Char)) :
    ∀ (m0 : JsMap) (p : String),
      mapGet (ls.foldl (fun map line =>
        match lineEntry? line with
        | none => map
        | some (filePath, size) => mapSet map filePath size) m0) p =
      (match lookupLast (ls.filterMap lineEntry?) p with
        | some v => some v
        | none => mapGet m0 p) := by
  induction ls with
  | nil => intro m0 p; simp [lookupLast]
  | cons l t ih =>
    intro m0 p
    simp only [List.foldl_cons, List.filterMap_cons]
    cases hE : lineEntry? l with
    | none => rw [ih]
    | some e =>
      obtain ⟨a, b⟩ := e
      rw [ih]
      simp only [lookupLast]
      cases lookupLast (t.filterMap lineEntry?) p with
      | some w => rfl
      | none =>
        rw [mapGet_mapSet]
        by_cases hap : a = p <;> simp [hap]

/-! ### Sorting is a permutation; newline splitting of the serialized text -/

theorem insertSorted_perm (x : List Char) (l : List (List Char)) :
    (insertSorted x l).Perm (x :: l) := by
  induction l with
  | nil => exact List.Perm.refl _
  | cons y t ih =>
    unfold insertSorted
    by_cases h : charListLe x y
    · rw [if_pos h]
    · rw [if_neg h]
      exact (List.Perm.cons y ih).trans (List.Perm.swap x y t)

theorem sortLines_perm (l : List (List Char)) : (sortLines l).Perm l := by
  induction l with
  | nil => exact List.Perm.refl _
  | cons x t ih =>
    unfold sortLines
    exact (insertSorted_perm x (sortLines t)).trans (List.Perm.cons x ih)

theorem filterMap_manifestLines (m : List (String × ℕ))
    (hp : ∀ e ∈ m, goodPath e.1) (hb : ∀ e ∈ m, e.2 < 2 ^ 1024) :
    (m.map manifestLine).filterMap lineEntry? =
      m.map (fun e => (e.1, (e.2 : ℚ))) := by
  induction m with
  | nil => rfl
  | cons e t ih =>
    simp only [List.map_cons, List.filterMap_cons]
    rw [show manifestLine e = manifestLine (e.1, e.2) from by rfl,
      lineEntry_manifestLine e.1 e.2 (hp e (by simp)) (hb e (by simp))]
    rw [ih (fun x hx => hp x (by simp [hx])) (fun x hx => hb x (by simp [hx]))]

theorem splitNlAux_no_nl (x : List Char) :
    ∀ (acc r : List Char), (∀ c ∈ x, ¬c = '\n') →
      splitNlAux (x ++ '\n' :: r) acc = (acc.reverse ++ x) :: splitNlAux r [] := by
  induction x with
  | nil =>
    intro acc r _
    simp only [List.nil_append, List.append_nil]
    conv_lhs => rw [splitNlAux]
    rw [if_pos rfl]
  | cons c t ih =>
    intro acc r hx
    simp only [List.cons_append]
    conv_lhs => rw [splitNlAux]
    rw [if_neg (hx c (by simp)), ih (c :: acc) r (fun y hy => hx y (by simp [hy]))]
    simp

theorem splitNl_joinNl (ls : List (List Char))
    (h : ∀ l ∈ ls, ∀ c ∈ l, ¬c = '\n') (hne : ls ≠ []) :
    splitNlAux (joinNl ls ++ ['\n']) [] = ls ++ [[]] := by
  induction ls with
  | nil => exact absurd rfl hne
  | cons x t ih =>
    cases t with
    | nil =>
      rw [show joinNl [x] = x from rfl,
        splitNlAux_no_nl x [] [] (h x (by simp))]
      rfl
    | cons y t2 =>
      have hstep : joinNl (x :: y :: t2) ++ ['\n'] =
          x ++ '\n' :: (joinNl (y :: t2) ++ ['\n']) := by
        rw [show joinNl (x :: y :: t2) = x ++ '\n' :: joinNl (y :: t2) from rfl]
        simp
      rw [hstep, splitNlAux_no_nl x [] _ (h x (by simp)),
        ih (fun l hl => h l (by simp [hl])) (by simp)]
      simp

theorem joinSpace_chars (chs : List (List Char))
    (h : ∀ ch ∈ chs, ∀ c ∈ ch, isJsWhitespace c = false) :
    ∀ c ∈ joinSpace chs, isJsWhitespace c = false ∨ c = ' ' := by
  induction chs with
  | nil => simp [joinSpace]
  | cons ch t ih =>
    intro c hc
    cases t with
    | nil => exact Or.inl (h ch (by simp) c (by simpa [joinSpace] using hc))
    | cons ch2 t2 =>
      rw [show joinSpace (ch :: ch2 :: t2) = ch ++ ' ' :: joinSpace (ch2 :: t2) from rfl] at hc
      rcases List.mem_append.1 hc with hc | hc
      · exact Or.inl (h ch (by simp) c hc)
      · rcases List.mem_cons.1 hc with rfl | hc
        · exact Or.inr rfl
        · exact ih (fun x hx => h x (by simp [hx])) c hc

theorem manifestLine_no_nl (e : String × ℕ) (hp : goodPath e.1) :
    ∀ c ∈ manifestLine e, ¬c = '\n' := by
  intro c hc
  obtain ⟨hpne, hpj⟩ := hp
  rw [show manifestLine e = natToDecimal e.2 ++ ' ' :: ' ' :: e.1.data from rfl] at hc
  have hnw : ∀ x ∈ natToDecimal e.2, isJsWhitespace x = false :=
    natToDecimal_all (fun c => isJsWhitespace c = false) digitChar_not_ws e.2
  rcases List.mem_append.1 hc with hc | hc
  · intro he
    have hx := hnw c hc
    rw [he] at hx
    exact absurd hx (by decide)
  · rcases List.mem_cons.1 hc with rfl | hc
    · decide
    · rcases List.mem_cons.1 hc with rfl | hc
      · decide
      · have hchprop := splitWsAux_chunks_prop e.1.data [] (by simp)
        have hor := joinSpace_chars (splitWsAux e.1.data [])
          (fun ch hch => (hchprop ch hch).2) c (by rw [hpj]; exact hc)
        rcases hor with h | h
        · intro he
          rw [he] at h
          exact absurd h (by decide)
        · rw [h]
          decide

theorem mapGet_map_cast (m : List (String × ℕ)) (p : String) :
    mapGet (m.map (fun e => (e.1, (e.2 : ℚ)))) p =
      (manifestLookup m p).map (fun n => (n : ℚ)) := by
  induction m with
  | nil => rfl
  | cons e t ih =>
    simp only [List.map_cons]
    unfold manifestLookup at ih ⊢
    by_cases he : e.1 = p
    · rw [List.find?_cons_of_pos _ (by simpa using he)]
      simp [mapGet, he]
    · rw [List.find?_cons_of_neg _ (by simpa using he)]
      rw [show mapGet ((e.1, (e.2 : ℚ)) :: t.map (fun e => (e.1, (e.2 : ℚ)))) p =
          mapGet (t.map (fun e => (e.1, (e.2 : ℚ)))) p from by simp [mapGet, he]]
      exact ih

/-- Claim C2 (amended): parsing the serialized text of a manifest
recovers the manifest, provided every path is nonempty with normalized
whitespace — its whitespace characters are single interior spaces only
(no leading or trailing whitespace, no whitespace runs, no tabs or other
whitespace characters; formalized by `goodPath`) — and every size is a
finite non-negative integer (below the double-precision overflow bound).
Recovery is stated as lookup equality: every path maps to the same size
in the parsed map as in the original manifest.  (As stated, with only
"no newline characters" required of paths, the claim is false; see the
counterexample.) -/
theorem c2_roundtrip (m : List (String × ℕ))
    (hkeys : (m.map Prod.fst).Nodup)
    (hpaths : ∀ e ∈ m, goodPath e.1)
    (hsizes : ∀ e ∈ m, e.2 < 2 ^ 1024) :
    ∀ p, mapGet (parseManifest (buildLocalManifestContent m)) p =
      (manifestLookup m p).map (fun n => (n : ℚ)) := by
  intro p
  have hperm : (sortLines (m.map manifestLine)).Perm (m.map manifestLine) :=
    sortLines_perm (m.map manifestLine)
  cases m with
  | nil => rfl
  | cons e0 m' =>
    have hsne : sortLines ((e0 :: m').map manifestLine) ≠ [] := by
      intro hc
      have := hperm.length_eq
      rw [hc] at this
      simp at this
    have hnl : ∀ l ∈ sortLines ((e0 :: m').map manifestLine), ∀ c ∈ l, ¬c = '\n' := by
      intro l hl
      have hl2 : l ∈ (e0 :: m').map manifestLine := hperm.mem_iff.1 hl
      obtain ⟨e, he, rfl⟩ := List.mem_map.1 hl2
      exact manifestLine_no_nl e (hpaths e he)
    have hdata : (buildLocalManifestContent (e0 :: m')).data =
        joinNl (sortLines ((e0 :: m').map manifestLine)) ++ ['\n'] := by
      unfold buildLocalManifestContent
      cases hs : sortLines ((e0 :: m').map manifestLine) with
      | nil => exact absurd hs hsne
      | cons x xs => rfl
    unfold parseManifest
    rw [hdata, splitNl_joinNl _ hnl hsne, List.foldl_append]
    rw [show ([([] : List Char)]).foldl (fun map line =>
        match lineEntry? line with
        | none => map
        | some (filePath, size) => mapSet map filePath size)
        (((sortLines ((e0 :: m').map manifestLine))).foldl (fun map line =>
          match lineEntry? line with
          | none => map
          | some (filePath, size) => mapSet map filePath size) []) =
        ((sortLines ((e0 :: m').map manifestLine))).foldl (fun map line =>
          match lineEntry? line with
          | none => map
          | some (filePath, size) => mapSet map filePath size) [] from rfl]
    rw [parse_foldl_lookup]
    have hpermF : ((sortLines ((e0 :: m').map manifestLine)).filterMap lineEntry?).Perm
        ((e0 :: m').map (fun e => (e.1, (e.2 : ℚ)))) := by
      rw [← filterMap_manifestLines (e0 :: m') hpaths hsizes]
      exact hperm.filterMap lineEntry?
    have hkeysmc : (((e0 :: m').map (fun e => (e.1, (e.2 : ℚ)))).map Prod.fst).Nodup := by
      rw [List.map_map]
      exact hkeys
    have hkeysF : (((sortLines ((e0 :: m').map manifestLine)).filterMap
        lineEntry?).map Prod.fst).Nodup :=
      ((hpermF.map Prod.fst).nodup_iff).2 hkeysmc
    rw [lookupLast_perm _ _ hpermF hkeysF p,
      lookupLast_eq_mapGet _ hkeysmc p, mapGet_map_cast]
    cases (manifestLookup (e0 :: m') p).map (fun n => (n : ℚ)) with
    | none => rfl
    | some v => rfl

set_option maxRecDepth 100000 in
/-- Claim C2 as stated is false: the path `"./a  b"` contains no newline
character and has the integer size 1, yet serializing the one-entry
manifest and parsing it back loses the path — the parser re-joins path
tokens with single spaces, so the double space collapses and the lookup
of the original path comes back empty. -/
theorem c2_counterexample :
    (∀ c ∈ ("./a  b" : String).data, ¬c = '\n') ∧
    mapGet (parseManifest (buildLocalManifestContent [("./a  b", 1)])) "./a  b" =
      none ∧
    parseManifest (buildLocalManifestContent [("./a  b", 1)]) = [("./a b", (1 : ℚ))] := by
  with_unfolding_all decide

set_option maxRecDepth 100000 in
/-- Witness for the amended round-trip at a concrete manifest with a
space inside one path. -/
theorem c2_roundtrip_witness :
    mapGet (parseManifest (buildLocalManifestContent [("./a.js", 100), ("./b c.js", 200)]))
      "./b c.js" = some ((200 : ℕ) : ℚ) := by
  have h := c2_roundtrip [("./a.js", 100), ("./b c.js", 200)]
    (by decide) (by decide) (by decide) "./b c.js"
  rw [h]
  with_unfolding_all rfl
